import Mathlib

/-!
Verification of the malayalam-corpus-cleaner repository.

Shallow embedding of the text-cleaning pipeline:
  * src/text_cleaner/cleaning.py   — pure text transforms and quality predicates
  * src/text_cleaner/chunker.py    — semantic chunking of documents
  * src/text_cleaner/pipeline.py   — the orchestrating cleaning_pipeline (stages 3-5)

Python strings are modelled as `List Char` (a Lean `Char` is a Unicode scalar
value, exactly a Python `str` element).  Python float ratios are modelled as
exact rationals.  The SHA-256 content digest used for deduplication is modelled
by the UTF-8 byte sequence it is computed from (an injective stand-in for a
collision-free digest).
-/

namespace MalayalamCorpusCleaner

/-- The set of code points accepted by Python's `str.isspace` (which is also
exactly the set matched by the `re` module's `\s` for `str` patterns, as used
in `cleaning.py`).  Enumerated as closed code-point ranges. -/
def pySpaceRanges : List (Nat × Nat) :=
  [(9, 13), (28, 32), (133, 133), (160, 160), (5760, 5760), (8192, 8202),
   (8232, 8233), (8239, 8239), (8287, 8287), (12288, 12288)]

/-- Python's `str.isspace` / regex `\s` predicate on a character. -/
def pyIsSpace (c : Char) : Bool :=
  pySpaceRanges.any (fun r => decide (r.1 ≤ c.toNat ∧ c.toNat ≤ r.2))

/-- The set of code points matched by the Python `re` module's `\d` for `str`
patterns: the Unicode decimal-digit (category Nd) code points, enumerated as
closed code-point ranges. -/
def pyDigitRanges : List (Nat × Nat) :=
  [(48, 57), (1632, 1641), (1776, 1785), (1984, 1993), (2406, 2415),
   (2534, 2543), (2662, 2671), (2790, 2799), (2918, 2927), (3046, 3055),
   (3174, 3183), (3302, 3311), (3430, 3439), (3558, 3567), (3664, 3673),
   (3792, 3801), (3872, 3881), (4160, 4169), (4240, 4249), (6112, 6121),
   (6160, 6169), (6470, 6479), (6608, 6617), (6784, 6793), (6800, 6809),
   (6992, 7001), (7088, 7097), (7232, 7241), (7248, 7257), (42528, 42537),
   (43216, 43225), (43264, 43273), (43472, 43481), (43504, 43513),
   (43600, 43609), (44016, 44025), (65296, 65305), (66720, 66729),
   (68912, 68921), (69734, 69743), (69872, 69881), (69942, 69951),
   (70096, 70105), (70384, 70393), (70736, 70745), (70864, 70873),
   (71248, 71257), (71360, 71369), (71472, 71481), (71904, 71913),
   (72016, 72025), (72784, 72793), (73040, 73049), (73120, 73129),
   (92768, 92777), (92864, 92873), (93008, 93017), (120782, 120831),
   (123200, 123209), (123632, 123641), (125264, 125273), (130032, 130041)]

/-- Python regex `\d` predicate on a character (Unicode decimal digits). -/
def reIsDigit (c : Char) : Bool :=
  pyDigitRanges.any (fun r => decide (r.1 ≤ c.toNat ∧ c.toNat ≤ r.2))

/-- The Malayalam Unicode block test `'ഀ' <= char <= 'ൿ'` used in
`cleaning.filter_by_ratio` and in the character class of
`cleaning.strict_mal_chars`. -/
def isMalayalamChar (c : Char) : Bool :=
  decide (0xD00 ≤ c.toNat ∧ c.toNat ≤ 0xD7F)

/-- Python `str.strip()`: drop `str.isspace` characters from both ends. -/
def pyStrip (l : List Char) : List Char :=
  ((l.dropWhile pyIsSpace).reverse.dropWhile pyIsSpace).reverse

/-- Helper for `collapseRuns`: the boolean records whether the previous
character was part of a run of characters satisfying `p` (so further `p`
characters are dropped rather than replaced again). -/
def collapseRunsAux (p : Char → Bool) (r : Char) : Bool → List Char → List Char
  | _, [] => []
  | true, c :: cs =>
    if p c then collapseRunsAux p r true cs
    else c :: collapseRunsAux p r false cs
  | false, c :: cs =>
    if p c then r :: collapseRunsAux p r true cs
    else c :: collapseRunsAux p r false cs

/-- `re.sub(runPattern, r, ·)` for a run pattern such as `\n+` or `[ \t]+`:
every maximal run of characters satisfying `p` is replaced by the single
character `r`.  Used with `p = (· = newline)`, `r = newline` for
`re.sub(r'\n+', '\n', ·)` and with `p =` space-or-tab, `r =` space for
`re.sub(r'[ \t]+', ' ', ·)` in `cleaning.remove_extra_whitespace`. -/
def collapseRuns (p : Char → Bool) (r : Char) (l : List Char) : List Char :=
  collapseRunsAux p r false l

/-- Character test for the regex class `[ \t]` in `remove_extra_whitespace`. -/
def isSpaceOrTab (c : Char) : Bool := c == ' ' || c == '\t'

/-- Character test for the regex `\n` (used by `re.sub(r'\n+', '\n', ·)`). -/
def isNewline (c : Char) : Bool := c == '\n'

/-- `cleaning.remove_extra_whitespace` (src/text_cleaner/cleaning.py:11-21):
strip both ends, collapse newline runs to one newline, then collapse
space/tab runs to one space. -/
def remove_extra_whitespace (text : List Char) : List Char :=
  collapseRuns isSpaceOrTab ' ' (collapseRuns isNewline '\n' (pyStrip text))

/-- `cleaning.remove_repeated_title` (src/text_cleaner/cleaning.py:23-32):
`text.split('\n', 1)[0].strip()` is compared with `title` (note: the title is
NOT stripped by the code); on a match the first line is dropped — the text
after the first newline, or the empty string when the text has no newline. -/
def remove_repeated_title (text title : List Char) : List Char :=
  let first_line := pyStrip (text.takeWhile (fun c => c ≠ '\n'))
  if first_line = title then
    if text.contains '\n' then (text.dropWhile (fun c => c ≠ '\n')).drop 1
    else []
  else text

/-- `cleaning.filter_by_ratio` (src/text_cleaner/cleaning.py:34-63): the loop
counts non-whitespace characters and Malayalam non-whitespace characters; the
counts are modelled with `countP`.  The float ratio comparison is modelled
exactly over the rationals. -/
def filter_by_ratio (text : List Char) (threshold : ℚ) : Bool :=
  if text = [] then false
  else
    let total_chars := text.countP (fun c => !(pyIsSpace c))
    let malayalam_chars := text.countP (fun c => !(pyIsSpace c) && isMalayalamChar c)
    if total_chars = 0 then false
    else decide (mkRat malayalam_chars total_chars ≥ threshold)

/-- Python `text.split()` (no separator): the list of maximal runs of
non-whitespace characters, whitespace per `str.isspace`.  A non-whitespace
character starts a new word exactly when it is at the start of the text or
follows a whitespace character; otherwise it extends the word that the
following characters begin (the recursion inspects the next character to
decide). -/
def pyWords : List Char → List (List Char)
  | [] => []
  | c :: cs =>
    if pyIsSpace c then pyWords cs
    else
      match cs, pyWords cs with
      | d :: _, w :: ws => if pyIsSpace d then [c] :: w :: ws else (c :: w) :: ws
      | _, _ => [[c]]

/-- `cleaning.filter_by_word_count` (src/text_cleaner/cleaning.py:65-77):
`len(text.split()) >= min_words`. -/
def filter_by_word_count (text : List Char) (min_words : Nat) : Bool :=
  decide ((pyWords text).length ≥ min_words)

/-- The character class `[ഀ-ൿ\s\d.,?!-]` of
`cleaning.strict_mal_chars`: Malayalam block, regex whitespace, regex digits,
and the literal punctuation characters. -/
def strictKeep (c : Char) : Bool :=
  isMalayalamChar c || pyIsSpace c || reIsDigit c ||
    (c == '.' || c == ',' || c == '?' || c == '!' || c == '-')

/-- `cleaning.strict_mal_chars` (src/text_cleaner/cleaning.py:79-91):
`re.sub(r'[^ഀ-ൿ\s\d.,?!-]', '', text)` deletes every character not
in the class, i.e. keeps exactly the characters of the class. -/
def strict_mal_chars (text : List Char) : List Char :=
  text.filter strictKeep

/-- `remove_repeated_title` as the specification describes it: the first line
(trimmed) is compared with the TRIMMED title.  (The code compares with the
title exactly as given.) -/
def remove_repeated_title_claim (text title : List Char) : List Char :=
  if pyStrip (text.takeWhile (fun c => c ≠ '\n')) = pyStrip title then
    if text.contains '\n' then (text.dropWhile (fun c => c ≠ '\n')).drop 1
    else []
  else text

/-- The character set named by the specification for the aggressive filter,
as stated: Malayalam block, whitespace, ASCII digits 0-9, and the five
punctuation marks. -/
def claimKeepAscii (c : Char) : Prop :=
  (0xD00 ≤ c.toNat ∧ c.toNat ≤ 0xD7F) ∨ pyIsSpace c = true ∨
    ('0' ≤ c ∧ c ≤ '9') ∨ c ∈ (['.', ',', '?', '!', '-'] : List Char)

/-- The amended character set for the aggressive filter: Unicode decimal
digits (regex `\d`) in place of ASCII-only digits. -/
def claimKeepUnicode (c : Char) : Prop :=
  (0xD00 ≤ c.toNat ∧ c.toNat ≤ 0xD7F) ∨ pyIsSpace c = true ∨
    reIsDigit c = true ∨ c ∈ (['.', ',', '?', '!', '-'] : List Char)

instance : DecidablePred claimKeepAscii := fun c => by
  unfold claimKeepAscii
  infer_instance

instance : DecidablePred claimKeepUnicode := fun c => by
  unfold claimKeepUnicode
  infer_instance

/-! ## chunker.py -/

/-- `len(text.split())`, the word-count measure used throughout
`chunker._semantic_chunking`. -/
def wordCount (l : List Char) : Nat := (pyWords l).length

/-- `"\n\n".join(paragraphList)`. -/
def joinNN (ps : List (List Char)) : List Char := List.intercalate ['\n', '\n'] ps

/-- `" ".join(sentenceList)`. -/
def joinSpace (ps : List (List Char)) : List Char := List.intercalate [' '] ps

/-- Prepend a character to the first piece of a split result. -/
def consToHead (c : Char) : List (List Char) → List (List Char)
  | [] => [[c]]
  | h :: t => (c :: h) :: t

/-- Python `text.split('\n\n')`: split at each leftmost non-overlapping
occurrence of two consecutive newlines. -/
def splitOnNN : List Char → List (List Char)
  | [] => [[]]
  | '\n' :: '\n' :: rest => [] :: splitOnNN rest
  | c :: rest => consToHead c (splitOnNN rest)

/-- `[p.strip() for p in text.split('\n\n') if p.strip()]`
(src/text_cleaner/chunker.py:16). -/
def pyParagraphs (text : List Char) : List (List Char) :=
  (splitOnNN text).filterMap (fun p =>
    let s := pyStrip p
    if s ≠ [] then some s else none)

/-- One iteration of the sentence-packing loop inside `_semantic_chunking`
(src/text_cleaner/chunker.py:32-42).  The accumulator carries
(chunks, current_sentence_chunk, current_sentence_words). -/
def sentenceStep (target_size : Nat)
    (acc : List (List Char) × List (List Char) × Nat) (sentence : List Char) :
    List (List Char) × List (List Char) × Nat :=
  let (chunks, current_sentence_chunk, current_sentence_words) := acc
  let sentence_words := wordCount sentence
  if current_sentence_words + sentence_words > target_size then
    ((if current_sentence_chunk ≠ [] then chunks ++ [joinSpace current_sentence_chunk]
      else chunks), [sentence], sentence_words)
  else
    (chunks, current_sentence_chunk ++ [sentence], current_sentence_words + sentence_words)

/-- One iteration of the paragraph loop of `_semantic_chunking`
(src/text_cleaner/chunker.py:20-55).  The accumulator carries
(chunks, current_chunk_paragraphs, current_chunk_words).  `sentence_split`
models the external `indicnlp` collaborator
`sentence_tokenize.sentence_split(paragraph, lang='ml')`. -/
def paragraphStep (sentence_split : List Char → List (List Char)) (target_size : Nat)
    (acc : List (List Char) × List (List Char) × Nat) (paragraph : List Char) :
    List (List Char) × List (List Char) × Nat :=
  let (chunks, current_chunk_paragraphs, current_chunk_words) := acc
  let paragraph_words := wordCount paragraph
  if paragraph_words > target_size then
    let flushed :=
      if current_chunk_paragraphs ≠ [] then
        (chunks ++ [joinNN current_chunk_paragraphs], ([] : List (List Char)), 0)
      else (chunks, current_chunk_paragraphs, current_chunk_words)
    let sentences := sentence_split paragraph
    let packed := sentences.foldl (sentenceStep target_size) (flushed.1, [], 0)
    let chunks2 := if packed.2.1 ≠ [] then packed.1 ++ [joinSpace packed.2.1] else packed.1
    (chunks2, flushed.2.1, flushed.2.2)
  else if current_chunk_words + paragraph_words > target_size then
    ((if current_chunk_paragraphs ≠ [] then chunks ++ [joinNN current_chunk_paragraphs]
      else chunks), [paragraph], paragraph_words)
  else
    (chunks, current_chunk_paragraphs ++ [paragraph], current_chunk_words + paragraph_words)

/-- `chunker._semantic_chunking` (src/text_cleaner/chunker.py:10-60). -/
def semanticChunking (sentence_split : List Char → List (List Char))
    (target_size : Nat) (text : List Char) : List (List Char) :=
  let paragraphs := pyParagraphs text
  let final := paragraphs.foldl (paragraphStep sentence_split target_size) ([], [], 0)
  if final.2.1 ≠ [] then final.1 ++ [joinNN final.2.1] else final.1

/-- Python `f"{n:0{width}d}"` for a natural `n`: the decimal digits of `n`
left-padded with zeros to `width` (never truncated). -/
def zeroPad (n width : Nat) : String :=
  let s := toString n
  String.mk (List.replicate (width - s.length) '0') ++ s

/-- A chunk record as built by `chunker.chunk_documents`
(src/text_cleaner/chunker.py:99-107) and annotated by the later pipeline
stages.  `Option` fields model dictionary keys that may be absent. -/
structure Chunk where
  doc_id : String
  doc_name : String
  doc_source_path : String
  total_chunks : Nat
  chunk_id : Nat
  text : List Char
  llm_score : Option Int := none
  llm_reason : Option String := none
  discard_reason : Option String := none
  discard_stage : Option String := none
deriving DecidableEq, Repr

/-- A document entering the chunking stage: the dictionary fields that
`chunk_documents` reads. -/
structure RawDoc where
  filename : Option String := none
  filepath : Option String := none
  text : List Char
deriving DecidableEq, Repr

/-- The chunk records contributed by the document at 1-based position
`doc_index` when chunking is enabled (src/text_cleaner/chunker.py:91-107). -/
def docRecords (sentence_split : List Char → List (List Char)) (target_size : Nat)
    (doc_id_width doc_index : Nat) (doc : RawDoc) : List Chunk :=
  let doc_id := zeroPad doc_index doc_id_width
  let chunks := semanticChunking sentence_split target_size doc.text
  let doc_name := doc.filename.getD ("document_" ++ doc_id)
  let doc_source_path := doc.filepath.getD ""
  chunks.enum.map (fun ci =>
    { doc_id := doc_id, doc_name := doc_name, doc_source_path := doc_source_path,
      total_chunks := chunks.length, chunk_id := ci.1 + 1, text := ci.2 })

/-- `chunker.chunk_documents` with chunking enabled
(src/text_cleaner/chunker.py:83-121). -/
def chunk_documents (sentence_split : List Char → List (List Char))
    (target_size : Nat) (documents : List RawDoc) : List Chunk :=
  let doc_id_width := (toString documents.length).length
  documents.enum.flatMap (fun d =>
    docRecords sentence_split target_size doc_id_width (d.1 + 1) d.2)

/-! ## pipeline.py, stages 3-5 -/

/-- The configuration values read by `cleaning_pipeline` stages 3-5
(the `filters` and `llm_scorer` sections). -/
structure PipelineConfig where
  malayalam_ratio_threshold : ℚ
  min_word_count : Nat
  scorer_enabled : Bool
  score_threshold : Int := 5

/-- UTF-8 encoding of one Unicode scalar value, as in `text.encode('utf-8')`. -/
def utf8Bytes (c : Char) : List Nat :=
  let n := c.toNat
  if n < 0x80 then [n]
  else if n < 0x800 then [0xC0 + n / 0x40, 0x80 + n % 0x40]
  else if n < 0x10000 then
    [0xE0 + n / 0x1000, 0x80 + (n / 0x40) % 0x40, 0x80 + n % 0x40]
  else
    [0xF0 + n / 0x40000, 0x80 + (n / 0x1000) % 0x40, 0x80 + (n / 0x40) % 0x40,
      0x80 + n % 0x40]

/-- `text.encode('utf-8')`. -/
def utf8Encode (l : List Char) : List Nat := l.flatMap utf8Bytes

/-- The pipeline's content digest
`hashlib.sha256(text.encode('utf-8')).hexdigest()`
(src/text_cleaner/pipeline.py:102), modelled by the encoded byte sequence
itself: the digest is collision-free in the model, so digest equality is
exactly UTF-8 byte-sequence equality. -/
def contentHash (text : List Char) : List Nat := utf8Encode text

/-- One iteration of the stage-3 pre-filtering loop
(src/text_cleaner/pipeline.py:41-63).  The accumulator carries
(chunks_to_score, discarded_documents). -/
def prefilterStep (cfg : PipelineConfig) (acc : List Chunk × List Chunk)
    (chunk : Chunk) : List Chunk × List Chunk :=
  let passes_malayalam_filter := filter_by_ratio chunk.text cfg.malayalam_ratio_threshold
  let passes_word_count_filter := filter_by_word_count chunk.text cfg.min_word_count
  if passes_malayalam_filter && passes_word_count_filter then
    (acc.1 ++ [chunk], acc.2)
  else
    let reason :=
      (if !passes_malayalam_filter then ["failed malayalam ratio"] else []) ++
      (if !passes_word_count_filter then ["failed word count"] else [])
    (acc.1, acc.2 ++ [{ chunk with
      discard_reason := some (String.intercalate ", " reason),
      discard_stage := some "Stage 3: Pre-filtering" }])

/-- Stage 3 over the whole chunk list (src/text_cleaner/pipeline.py:40-63),
starting from empty `chunks_to_score` and `discarded_documents`. -/
def prefilterChunks (cfg : PipelineConfig) (chunks : List Chunk) :
    List Chunk × List Chunk :=
  chunks.foldl (prefilterStep cfg) ([], [])

/-- Stage 4 with scoring enabled: `llm_scorer.score_documents`
(src/text_cleaner/llm_scorer.py:202-217) walks the list in order and gives
each document an `llm_score`/`llm_reason` pair computed by the external model
collaborator, leaving every other field alone.  The collaborator is modelled
by `oracle`; `none` models the initialization-failure and unknown-provider
paths, which return the documents unscored. -/
def scoreStage (oracle : Chunk → Option (Int × String)) (chunks : List Chunk) :
    List Chunk :=
  chunks.map (fun doc =>
    match oracle doc with
    | none => doc
    | some sr => { doc with llm_score := some sr.1, llm_reason := some sr.2 })

/-- Stage 4 with scoring disabled (src/text_cleaner/pipeline.py:79-86): every
document without an `llm_score` key gets `llm_score = None` and
`llm_reason = 'LLM scoring disabled'`. -/
def disabledScoreStage (chunks : List Chunk) : List Chunk :=
  chunks.map (fun doc =>
    if doc.llm_score = none then
      { doc with llm_score := none, llm_reason := some "LLM scoring disabled" }
    else doc)

/-- The deduplication half of one stage-5 iteration
(src/text_cleaner/pipeline.py:102-110).  The accumulator carries
(final_documents, discarded_documents, seen_hashes). -/
def dedupStep (acc : List Chunk × List Chunk × List (List Nat)) (doc : Chunk) :
    List Chunk × List Chunk × List (List Nat) :=
  let (final_documents, discarded_documents, seen_hashes) := acc
  let text_hash := contentHash doc.text
  if text_hash ∉ seen_hashes then
    (final_documents ++ [doc], discarded_documents, text_hash :: seen_hashes)
  else
    (final_documents, discarded_documents ++ [{ doc with
      discard_reason := some "duplicate content",
      discard_stage := some "Stage 5: Deduplication" }], seen_hashes)

/-- One iteration of the stage-5 final filtering & deduplication loop
(src/text_cleaner/pipeline.py:92-110). -/
def finalStep (cfg : PipelineConfig)
    (acc : List Chunk × List Chunk × List (List Nat)) (doc : Chunk) :
    List Chunk × List Chunk × List (List Nat) :=
  match doc.llm_score with
  | some llm_score =>
    if llm_score < cfg.score_threshold then
      (acc.1, acc.2.1 ++ [{ doc with
        discard_reason := some ("failed llm score (" ++ toString llm_score ++ ")"),
        discard_stage := some "Stage 5: LLM score filtering" }], acc.2.2)
    else dedupStep acc doc
  | none => dedupStep acc doc

/-- Stage 5 over the scored list (src/text_cleaner/pipeline.py:88-110),
continuing with the discard list accumulated by stage 3 and starting from an
empty `seen_hashes` set. -/
def finalizeChunks (cfg : PipelineConfig) (scored_documents : List Chunk)
    (discarded0 : List Chunk) : List Chunk × List Chunk × List (List Nat) :=
  scored_documents.foldl (finalStep cfg) ([], discarded0, [])

/-- Stages 3-5 of `pipeline.cleaning_pipeline`
(src/text_cleaner/pipeline.py:37-133), as a function of the stage-2 chunk
list `chunked_documents`; returns (final_documents, discarded_documents). -/
def pipelineStages (cfg : PipelineConfig) (oracle : Chunk → Option (Int × String))
    (chunked_documents : List Chunk) : List Chunk × List Chunk :=
  let pre := prefilterChunks cfg chunked_documents
  let scored_documents :=
    if cfg.scorer_enabled then scoreStage oracle pre.1
    else disabledScoreStage pre.1
  let fin := finalizeChunks cfg scored_documents pre.2
  (fin.1, fin.2.1)

/-- The stage-2 identity of a chunk: exactly the fields `chunk_documents`
writes.  Stages 3-5 only add scoring/discard annotations, so this is what
"the same chunk" means across the pipeline. -/
def payload (c : Chunk) : String × String × String × Nat × Nat × List Char :=
  (c.doc_id, c.doc_name, c.doc_source_path, c.total_chunks, c.chunk_id, c.text)

/-- The discard annotation written by the stage-5 deduplication branch
(src/text_cleaner/pipeline.py:108-109). -/
def dupAnn (c : Chunk) : Chunk :=
  { c with discard_reason := some "duplicate content",
           discard_stage := some "Stage 5: Deduplication" }

/-- The stage-3 acceptance predicate: both prefilter predicates pass
(src/text_cleaner/pipeline.py:52). -/
def prefPass (cfg : PipelineConfig) (c : Chunk) : Bool :=
  filter_by_ratio c.text cfg.malayalam_ratio_threshold &&
    filter_by_word_count c.text cfg.min_word_count

/-- The stage-3 discard annotation (src/text_cleaner/pipeline.py:55-62),
recomputed from the chunk. -/
def prefAnn (cfg : PipelineConfig) (c : Chunk) : Chunk :=
  { c with
    discard_reason := some (String.intercalate ", "
      ((if !(filter_by_ratio c.text cfg.malayalam_ratio_threshold) then
          ["failed malayalam ratio"] else []) ++
       (if !(filter_by_word_count c.text cfg.min_word_count) then
          ["failed word count"] else []))),
    discard_stage := some "Stage 3: Pre-filtering" }

/-- `True` iff stage 5 does not discard the chunk for its score
(src/text_cleaner/pipeline.py:96): the score is absent or at least the
threshold. -/
def passesScore (cfg : PipelineConfig) (c : Chunk) : Bool :=
  match c.llm_score with
  | some s => decide (cfg.score_threshold ≤ s)
  | none => true

example : remove_extra_whitespace "  a\t\tb\n\n\nc ".toList = "a b\nc".toList := by decide
example : remove_repeated_title "Foo\nbar".toList "Foo".toList = "bar".toList := by decide
example : remove_repeated_title "Foo\nbar".toList " Foo ".toList = "Foo\nbar".toList := by decide
example : filter_by_word_count "one two three".toList 3 = true := by decide
example : filter_by_word_count "one two three".toList 4 = false := by decide
example : filter_by_ratio "abc".toList 0 = true := by decide
example : filter_by_ratio "".toList 0 = false := by decide
example : strict_mal_chars "aب٣9.x".toList = "٣9.".toList := by decide
example : splitOnNN "a\n\n\nb".toList = ["a".toList, "\nb".toList] := by decide
example : splitOnNN "".toList = [[]] := by decide
example : pyParagraphs " \n \n  ".toList = [] := by decide
example : pyWords "  one two\tthree ".toList = ["one".toList, "two".toList, "three".toList] := by decide
example : zeroPad 7 3 = "007" := by decide
example : semanticChunking (fun _ => []) 10 "a b c d\n\ne f g h\n\ni j k l".toList =
    ["a b c d\n\ne f g h".toList, "i j k l".toList] := by decide
example : utf8Encode "aഅ".toList = [0x61, 0xE0, 0xB4, 0x85] := by decide

/-! ## Theorems -/

/-- C9: `filter_by_ratio` never divides by zero: it returns `false` on the
empty text and on any text with zero non-whitespace characters, and on a
text with at least one non-whitespace character it returns exactly whether
the Malayalam ratio is at least the threshold; in particular with threshold
`0` every such text passes. -/
theorem C9_filter_by_ratio_safe (text : List Char) (t : ℚ)
    (htotal : 0 < text.countP (fun c => !(pyIsSpace c))) :
    (∀ u : ℚ, filter_by_ratio [] u = false) ∧
    (∀ (s : List Char) (u : ℚ), s.countP (fun c => !(pyIsSpace c)) = 0 →
      filter_by_ratio s u = false) ∧
    (filter_by_ratio text t = true ↔
      ((text.countP (fun c => !(pyIsSpace c) && isMalayalamChar c) : ℚ) /
        (text.countP (fun c => !(pyIsSpace c)) : ℚ) ≥ t)) ∧
    filter_by_ratio text 0 = true := by
  have hne : text ≠ [] := by
    intro h
    rw [h] at htotal
    simp at htotal
  refine ⟨?_, ?_, ?_, ?_⟩
  · intro u
    simp [filter_by_ratio]
  · intro s u h
    by_cases hs : s = []
    · simp [filter_by_ratio, hs]
    · simp [filter_by_ratio, hs, h]
  · rw [filter_by_ratio, if_neg hne, if_neg htotal.ne']
    rw [decide_eq_true_iff, Rat.mkRat_eq_div]
    push_cast
    exact Iff.rfl
  · rw [filter_by_ratio, if_neg hne, if_neg htotal.ne']
    rw [decide_eq_true_iff, Rat.mkRat_eq_div, ge_iff_le]
    positivity

/-- C9 witness: concrete instance of the ratio-filter safety theorem. -/
theorem C9_witness : filter_by_ratio "abc".toList 0 = true :=
  (C9_filter_by_ratio_safe "abc".toList 0 (by decide)).2.2.2

/-- C2 counterexample: a chunk failing a pre-filter predicate gets
`discard_stage = "Stage 3: Pre-filtering"`, not the string
`"Pre-filtering"` that the claim states. -/
theorem C2_counterexample :
    (prefilterChunks
        { malayalam_ratio_threshold := 1, min_word_count := 5,
          scorer_enabled := false, score_threshold := 5 }
        [{ doc_id := "1", doc_name := "d", doc_source_path := "",
           total_chunks := 1, chunk_id := 1, text := "abc".toList }]).2.map
        (fun c => c.discard_stage) = [some "Stage 3: Pre-filtering"] ∧
    ("Stage 3: Pre-filtering" : String) ≠ "Pre-filtering" := by
  decide

/-- C2 (amended): a chunk that passes both pre-filter predicates is not
discarded at stage 3; a chunk failing one or both is appended to the
discarded list with a `discard_reason` naming every failed predicate (both
names joined by ", " when both fail) and with
`discard_stage = "Stage 3: Pre-filtering"`. -/
theorem C2_prefilter_discard (cfg : PipelineConfig) (acc : List Chunk × List Chunk)
    (c : Chunk) :
    (filter_by_ratio c.text cfg.malayalam_ratio_threshold = true →
      filter_by_word_count c.text cfg.min_word_count = true →
      prefilterStep cfg acc c = (acc.1 ++ [c], acc.2)) ∧
    (filter_by_ratio c.text cfg.malayalam_ratio_threshold = false →
      filter_by_word_count c.text cfg.min_word_count = false →
      prefilterStep cfg acc c = (acc.1, acc.2 ++ [{ c with
        discard_reason := some "failed malayalam ratio, failed word count",
        discard_stage := some "Stage 3: Pre-filtering" }])) ∧
    (filter_by_ratio c.text cfg.malayalam_ratio_threshold = false →
      filter_by_word_count c.text cfg.min_word_count = true →
      prefilterStep cfg acc c = (acc.1, acc.2 ++ [{ c with
        discard_reason := some "failed malayalam ratio",
        discard_stage := some "Stage 3: Pre-filtering" }])) ∧
    (filter_by_ratio c.text cfg.malayalam_ratio_threshold = true →
      filter_by_word_count c.text cfg.min_word_count = false →
      prefilterStep cfg acc c = (acc.1, acc.2 ++ [{ c with
        discard_reason := some "failed word count",
        discard_stage := some "Stage 3: Pre-filtering" }])) := by
  refine ⟨fun h1 h2 => ?_, fun h1 h2 => ?_, fun h1 h2 => ?_, fun h1 h2 => ?_⟩ <;>
    (simp [prefilterStep, h1, h2]; try rfl)

/-- C2 witness: concrete chunk failing both predicates. -/
theorem C2_witness :
    prefilterStep
      { malayalam_ratio_threshold := 1, min_word_count := 5,
        scorer_enabled := false, score_threshold := 5 } ([], [])
      { doc_id := "1", doc_name := "d", doc_source_path := "",
        total_chunks := 1, chunk_id := 1, text := "abc".toList } =
    ([], [{ doc_id := "1", doc_name := "d", doc_source_path := "",
            total_chunks := 1, chunk_id := 1, text := "abc".toList,
            discard_reason := some "failed malayalam ratio, failed word count",
            discard_stage := some "Stage 3: Pre-filtering" }]) :=
  (C2_prefilter_discard _ _ _).2.1 (by decide) (by decide)

/-- C4: in the stage-5 step, a chunk whose score equals the threshold (or
exceeds it) is not discarded for its score — the step is exactly the
deduplication step, which only ever discards with reason
"duplicate content" — while a score strictly below the threshold (for
example threshold - 1) discards the chunk with reason
`failed llm score (<score>)` carrying the literal score value. -/
theorem C4_score_threshold (cfg : PipelineConfig)
    (acc : List Chunk × List Chunk × List (List Nat)) (doc : Chunk) :
    (doc.llm_score = some cfg.score_threshold →
      finalStep cfg acc doc = dedupStep acc doc) ∧
    (∀ s : Int, doc.llm_score = some s → cfg.score_threshold ≤ s →
      finalStep cfg acc doc = dedupStep acc doc) ∧
    (∀ s : Int, doc.llm_score = some s → s < cfg.score_threshold →
      finalStep cfg acc doc = (acc.1, acc.2.1 ++ [{ doc with
        discard_reason := some ("failed llm score (" ++ toString s ++ ")"),
        discard_stage := some "Stage 5: LLM score filtering" }], acc.2.2)) ∧
    (∀ a : Chunk, a ∈ (dedupStep acc doc).2.1 →
      a ∈ acc.2.1 ∨ a.discard_reason = some "duplicate content") := by
  refine ⟨?_, ?_, ?_, ?_⟩
  · intro h
    simp [finalStep, h]
  · intro s h hs
    simp [finalStep, h, not_lt.mpr hs]
  · intro s h hs
    simp [finalStep, h, hs]
  · intro a ha
    by_cases hmem : contentHash doc.text ∈ acc.2.2
    · simp [dedupStep, hmem] at ha
      rcases ha with ha | ha
      · exact Or.inl ha
      · subst ha
        exact Or.inr rfl
    · simp [dedupStep, hmem] at ha
      exact Or.inl ha

/-- C4 witness: a concrete chunk scored exactly at the threshold goes to
deduplication (and is accepted there). -/
theorem C4_witness :
    finalStep
      { malayalam_ratio_threshold := 0, min_word_count := 0,
        scorer_enabled := true, score_threshold := 5 } ([], [], [])
      { doc_id := "1", doc_name := "d", doc_source_path := "",
        total_chunks := 1, chunk_id := 1, text := "abc".toList,
        llm_score := some 5 } =
    dedupStep ([], [], [])
      { doc_id := "1", doc_name := "d", doc_source_path := "",
        total_chunks := 1, chunk_id := 1, text := "abc".toList,
        llm_score := some 5 } :=
  (C4_score_threshold _ _ _).1 rfl

lemma takeWhile_middle {α : Type} {p : α → Bool} {x : α} (pre post : List α)
    (hpre : ∀ c ∈ pre, p c = true) (hx : p x = false) :
    (pre ++ x :: post).takeWhile p = pre := by
  induction pre with
  | nil => simp [List.takeWhile_cons, hx]
  | cons a t ih =>
    have ha : p a = true := hpre a (by simp)
    simp only [List.cons_append, List.takeWhile_cons, ha, if_true]
    rw [ih (fun c hc => hpre c (by simp [hc]))]

lemma dropWhile_middle {α : Type} {p : α → Bool} {x : α} (pre post : List α)
    (hpre : ∀ c ∈ pre, p c = true) (hx : p x = false) :
    (pre ++ x :: post).dropWhile p = x :: post := by
  induction pre with
  | nil => simp [List.dropWhile_cons, hx]
  | cons a t ih =>
    have ha : p a = true := hpre a (by simp)
    simp only [List.cons_append, List.dropWhile_cons, ha, if_true]
    exact ih (fun c hc => hpre c (by simp [hc]))

/-- C6 counterexample: for text "Foo\nbar" and title " Foo " the first line
trimmed equals the title trimmed, yet the code returns the text unchanged
(it compares against the untrimmed title), contradicting the claim's
"if and only if". -/
theorem C6_counterexample :
    pyStrip ((("Foo\nbar".toList)).takeWhile (fun c => c ≠ '\n')) =
      pyStrip " Foo ".toList ∧
    remove_repeated_title "Foo\nbar".toList " Foo ".toList = "Foo\nbar".toList ∧
    remove_repeated_title "Foo\nbar".toList " Foo ".toList ≠
      remove_repeated_title_claim "Foo\nbar".toList " Foo ".toList := by
  decide

/-- C6 (amended): `remove_repeated_title` drops the first line iff the first
line trimmed of surrounding whitespace exactly equals the title AS GIVEN
(the title is not trimmed); otherwise the text is returned unchanged.  The
comparison is exact list equality — no fuzzy matching. -/
theorem C6_remove_repeated_title (text title : List Char) :
    (pyStrip (text.takeWhile (fun c => c ≠ '\n')) ≠ title →
      remove_repeated_title text title = text) ∧
    (∀ pre post, '\n' ∉ pre → text = pre ++ '\n' :: post → pyStrip pre = title →
      remove_repeated_title text title = post) ∧
    ('\n' ∉ text → pyStrip text = title → remove_repeated_title text title = []) := by
  refine ⟨?_, ?_, ?_⟩
  · intro h
    simp only [remove_repeated_title]
    rw [if_neg h]
  · rintro pre post hpre rfl htitle
    have h1 : (pre ++ '\n' :: post).takeWhile (fun c => decide (c ≠ '\n')) = pre :=
      takeWhile_middle pre post
        (fun c hc => decide_eq_true (fun hh : c = '\n' => hpre (hh ▸ hc)))
        (by simp)
    have h2 : (pre ++ '\n' :: post).dropWhile (fun c => decide (c ≠ '\n')) = '\n' :: post :=
      dropWhile_middle pre post
        (fun c hc => decide_eq_true (fun hh : c = '\n' => hpre (hh ▸ hc)))
        (by simp)
    have h3 : (pre ++ '\n' :: post).contains '\n' = true := by simp
    simp only [remove_repeated_title, h1, h2, htitle, if_pos rfl, h3, if_true,
      List.drop_succ_cons, List.drop_zero]
  · intro hnl htitle
    have htake : text.takeWhile (fun c => decide (c ≠ '\n')) = text := by
      rw [List.takeWhile_eq_self_iff]
      intro x hx
      exact decide_eq_true (fun hh : x = '\n' => hnl (hh ▸ hx))
    have hcont : ¬ (text.contains '\n' = true) := by simp [hnl]
    simp only [remove_repeated_title, htake, htitle, if_pos rfl]
    rw [if_neg hcont]
    simp

/-- C6 witness: a concrete matching title (untrimmed equality) is dropped. -/
theorem C6_witness : remove_repeated_title "Foo\nbar".toList "Foo".toList = "bar".toList :=
  (C6_remove_repeated_title "Foo\nbar".toList "Foo".toList).2.1
    "Foo".toList "bar".toList (by decide) (by decide) (by decide)

/-- C7 counterexample: the Arabic-Indic digit U+0663 is outside the claimed
character set (it is not an ASCII digit), yet `strict_mal_chars` keeps it —
the regex `\d` matches every Unicode decimal digit. -/
theorem C7_counterexample :
    strict_mal_chars ['٣'] = ['٣'] ∧ ¬ claimKeepAscii '٣' := by
  constructor
  · decide
  · decide

/-- C7 (amended): `strict_mal_chars` returns the subsequence of characters
that are in the Malayalam block, whitespace, Unicode decimal digits (regex
`\d`), or one of ". , ? ! -"; every character outside this set is deleted
and none inside it is. -/
theorem C7_strict_filter (l : List Char) :
    (strict_mal_chars l).Sublist l ∧
    (∀ c ∈ l, c ∈ strict_mal_chars l ↔ claimKeepUnicode c) ∧
    strict_mal_chars l = l.filter (fun c => decide (claimKeepUnicode c)) := by
  have hkeep : ∀ c : Char, strictKeep c = true ↔ claimKeepUnicode c := by
    intro c
    simp [strictKeep, claimKeepUnicode, isMalayalamChar, Bool.or_eq_true,
      decide_eq_true_eq, or_assoc]
  refine ⟨List.filter_sublist l, ?_, ?_⟩
  · intro c hc
    rw [strict_mal_chars, List.mem_filter]
    rw [← hkeep c]
    simp [hc]
  · rw [strict_mal_chars]
    apply List.filter_congr
    intro c _
    by_cases hc : claimKeepUnicode c
    · simp [hc, (hkeep c).mpr hc]
    · have hsk : strictKeep c = false := by
        cases hb : strictKeep c
        · rfl
        · exact absurd ((hkeep c).mp hb) hc
      simp [hc, hsk]

/-- C7 witness: a Malayalam character is kept. -/
theorem C7_witness : 'അ' ∈ strict_mal_chars ['അ'] :=
  ((C7_strict_filter ['അ']).2.1 'അ' (by decide)).mpr (by decide)

/-- C5: the paragraph-accumulation rule of `_semantic_chunking` flushes the
pending buffer only on a strict overrun of `target_size`: a next paragraph
that fits exactly on the budget is appended to the current buffer with no
flush; a strict overrun (for a paragraph that itself fits the budget)
flushes the non-empty buffer and starts a new one with just that paragraph.
On target 10 with three 4-word paragraphs this yields exactly the two chunks
[paragraph1+paragraph2] and [paragraph3]. -/
theorem C5_chunk_budget :
    (∀ (ss : List Char → List (List Char)) (target : Nat)
        (chunks curP : List (List Char)) (curW : Nat) (p : List Char),
      curW + wordCount p ≤ target →
      paragraphStep ss target (chunks, curP, curW) p =
        (chunks, curP ++ [p], curW + wordCount p)) ∧
    (∀ (ss : List Char → List (List Char)) (target : Nat)
        (chunks curP : List (List Char)) (curW : Nat) (p : List Char),
      wordCount p ≤ target → target < curW + wordCount p → curP ≠ [] →
      paragraphStep ss target (chunks, curP, curW) p =
        (chunks ++ [joinNN curP], [p], wordCount p)) ∧
    (∀ ss : List Char → List (List Char),
      semanticChunking ss 10 "a b c d\n\ne f g h\n\ni j k l".toList =
        ["a b c d\n\ne f g h".toList, "i j k l".toList]) := by
  refine ⟨?_, ?_, ?_⟩
  · intro ss target chunks curP curW p h
    have hp : ¬ (wordCount p > target) := by omega
    have hw : ¬ (curW + wordCount p > target) := by omega
    simp only [paragraphStep]
    rw [if_neg hp, if_neg hw]
  · intro ss target chunks curP curW p h1 h2 hne
    have hp : ¬ (wordCount p > target) := by omega
    simp only [paragraphStep]
    rw [if_neg hp, if_pos h2, if_pos hne]
  · intro ss
    rfl

/-- C5 witness: a paragraph landing exactly on the budget (4 + 4 = 8 on
target 8) is kept in the current buffer. -/
theorem C5_witness :
    paragraphStep (fun _ => []) 8 ([], ["a b c d".toList], 4) "e f g h".toList =
      ([], ["a b c d".toList, "e f g h".toList], 8) :=
  (C5_chunk_budget.1 (fun _ => []) 8 [] ["a b c d".toList] 4 "e f g h".toList
    (by decide)).trans (by decide)

lemma splitOnNN_cons_ne (c : Char) (rest : List Char)
    (hno : ∀ rest1 : List Char, c = '\n' → rest = '\n' :: rest1 → False) :
    splitOnNN (c :: rest) = consToHead c (splitOnNN rest) := by
  rw [splitOnNN.eq_def]
  split
  · rename_i heq
    cases heq
  · rename_i rest1 heq
    cases heq
    exact (hno rest1 rfl rfl).elim
  · rename_i c2 rest2 h2 heq
    cases heq
    rfl

lemma splitOnNN_mem :
    ∀ (l : List Char) (piece : List Char), piece ∈ splitOnNN l → ∀ c ∈ piece, c ∈ l := by
  intro l
  induction l using splitOnNN.induct with
  | case1 =>
    intro piece hp c hc
    simp [splitOnNN] at hp
    simp [hp] at hc
  | case2 rest ih =>
    intro piece hp c hc
    simp only [splitOnNN, List.mem_cons] at hp
    rcases hp with rfl | hp
    · simp at hc
    · simp [ih piece hp c hc]
  | case3 a rest hno ih =>
    intro piece hp c hc
    rw [splitOnNN_cons_ne a rest hno] at hp
    rcases hsp : splitOnNN rest with _ | ⟨h0, t⟩
    · rw [hsp] at hp
      simp only [consToHead, List.mem_singleton] at hp
      subst hp
      simp only [List.mem_singleton] at hc
      simp [hc]
    · rw [hsp] at hp
      simp only [consToHead, List.mem_cons] at hp
      rcases hp with rfl | hp
      · rcases List.mem_cons.mp hc with rfl | hc0
        · simp
        · have := ih h0 (by rw [hsp]; exact List.mem_cons_self _ _) c hc0
          simp [this]
      · have := ih piece (by rw [hsp]; exact List.mem_cons_of_mem _ hp) c hc
        simp [this]

lemma pyStrip_eq_nil_of_all (l : List Char) (h : ∀ c ∈ l, pyIsSpace c = true) :
    pyStrip l = [] := by
  rw [pyStrip, List.dropWhile_eq_nil_iff.mpr h]
  simp

lemma pyParagraphs_eq_nil_of_all (text : List Char)
    (h : ∀ c ∈ text, pyIsSpace c = true) : pyParagraphs text = [] := by
  rw [pyParagraphs, List.filterMap_eq_nil_iff]
  intro piece hp
  have hps : pyStrip piece = [] :=
    pyStrip_eq_nil_of_all piece (fun c hc => h c (splitOnNN_mem text piece hp c hc))
  simp [hps]

/-- C10: a document whose text has no non-empty paragraph (for example, a
whitespace-only text) produces zero chunks: `_semantic_chunking` returns the
empty list, the document contributes no record in `chunk_documents`, and the
pipeline run over such a single-document collection returns two empty
collections — the document disappears from the accounting entirely. -/
theorem C10_whitespace_doc_vanishes (ss : List Char → List (List Char))
    (target : Nat) (doc : RawDoc) (cfg : PipelineConfig)
    (oracle : Chunk → Option (Int × String))
    (h : pyParagraphs doc.text = []) :
    semanticChunking ss target doc.text = [] ∧
    (∀ w i : Nat, docRecords ss target w i doc = []) ∧
    chunk_documents ss target [doc] = [] ∧
    pipelineStages cfg oracle (chunk_documents ss target [doc]) = ([], []) ∧
    (∀ text : List Char, text.all pyIsSpace = true → pyParagraphs text = []) := by
  have hchunks : semanticChunking ss target doc.text = [] := by
    simp [semanticChunking, h]
  have hrec : ∀ w i : Nat, docRecords ss target w i doc = [] := by
    intro w i
    simp [docRecords, hchunks]
  have hcd : chunk_documents ss target [doc] = [] := by
    simp [chunk_documents, hrec]
  refine ⟨hchunks, hrec, hcd, ?_, ?_⟩
  · rw [hcd]
    simp [pipelineStages, prefilterChunks, finalizeChunks, scoreStage, disabledScoreStage]
  · intro text ht
    exact pyParagraphs_eq_nil_of_all text (by simpa [List.all_eq_true] using ht)

/-- C10 witness: a concrete whitespace-only document. -/
theorem C10_witness :
    chunk_documents (fun _ => []) 100 [{ text := "  \n \n\t ".toList }] = [] :=
  (C10_whitespace_doc_vanishes (fun _ => []) 100 { text := "  \n \n\t ".toList }
    { malayalam_ratio_threshold := 0, min_word_count := 0,
      scorer_enabled := false, score_threshold := 5 }
    (fun _ => none) (by decide)).2.2.1

@[simp]
lemma payload_update_discard (c : Chunk) (r s : Option String) :
    payload { c with discard_reason := r, discard_stage := s } = payload c := rfl

@[simp]
lemma payload_update_score (c : Chunk) (s : Option Int) (r : Option String) :
    payload { c with llm_score := s, llm_reason := r } = payload c := rfl

lemma prefilter_foldl (cfg : PipelineConfig) :
    ∀ (l : List Chunk) (ts ds : List Chunk),
      l.foldl (prefilterStep cfg) (ts, ds) =
        (ts ++ l.filter (prefPass cfg),
         ds ++ (l.filter (fun c => !(prefPass cfg c))).map (prefAnn cfg)) := by
  intro l
  induction l with
  | nil => intro ts ds; simp
  | cons c t ih =>
    intro ts ds
    rw [List.foldl_cons]
    cases hp : prefPass cfg c with
    | true =>
      have hp' : (filter_by_ratio c.text cfg.malayalam_ratio_threshold &&
          filter_by_word_count c.text cfg.min_word_count) = true := hp
      have hstep : prefilterStep cfg (ts, ds) c = (ts ++ [c], ds) := by
        simp only [prefilterStep, hp', if_true]
      rw [hstep, ih]
      simp [List.filter_cons, hp]
    | false =>
      have hp' : (filter_by_ratio c.text cfg.malayalam_ratio_threshold &&
          filter_by_word_count c.text cfg.min_word_count) = false := hp
      have hstep : prefilterStep cfg (ts, ds) c = (ts, ds ++ [prefAnn cfg c]) := by
        simp only [prefilterStep, hp', Bool.false_eq_true, if_false, prefAnn]
      rw [hstep, ih]
      simp [List.filter_cons, hp]

lemma scoreStage_map_payload (oracle : Chunk → Option (Int × String)) (l : List Chunk) :
    (scoreStage oracle l).map payload = l.map payload := by
  rw [scoreStage, List.map_map]
  apply List.map_congr_left
  intro a _
  simp only [Function.comp_apply]
  cases h : oracle a <;> simp [h]

lemma disabledScoreStage_map_payload (l : List Chunk) :
    (disabledScoreStage l).map payload = l.map payload := by
  rw [disabledScoreStage, List.map_map]
  apply List.map_congr_left
  intro a _
  simp only [Function.comp_apply]
  by_cases h : a.llm_score = none <;> simp [h]

lemma finalStep_score_lt (cfg : PipelineConfig) (F D : List Chunk)
    (S : List (List Nat)) (doc : Chunk) (s : Int)
    (h : doc.llm_score = some s) (hs : s < cfg.score_threshold) :
    finalStep cfg (F, D, S) doc = (F, D ++ [{ doc with
      discard_reason := some ("failed llm score (" ++ toString s ++ ")"),
      discard_stage := some "Stage 5: LLM score filtering" }], S) := by
  simp [finalStep, h, hs]

lemma finalStep_passes (cfg : PipelineConfig) (acc : List Chunk × List Chunk × List (List Nat))
    (doc : Chunk) (h : passesScore cfg doc = true) :
    finalStep cfg acc doc = dedupStep acc doc := by
  cases hls : doc.llm_score with
  | none => simp [finalStep, hls]
  | some s =>
    have hle : cfg.score_threshold ≤ s := by
      have := h
      rw [passesScore, hls] at this
      exact of_decide_eq_true this
    simp [finalStep, hls, not_lt.mpr hle]

lemma passesScore_false (cfg : PipelineConfig) (doc : Chunk)
    (h : passesScore cfg doc = false) :
    ∃ s : Int, doc.llm_score = some s ∧ s < cfg.score_threshold := by
  cases hls : doc.llm_score with
  | none =>
    rw [passesScore, hls] at h
    cases h
  | some s =>
    refine ⟨s, rfl, ?_⟩
    rw [passesScore, hls] at h
    exact lt_of_not_le (of_decide_eq_false h)

lemma dedupStep_new (F D : List Chunk) (S : List (List Nat)) (doc : Chunk)
    (h : contentHash doc.text ∉ S) :
    dedupStep (F, D, S) doc = (F ++ [doc], D, contentHash doc.text :: S) := by
  simp [dedupStep, h]

lemma dedupStep_dup (F D : List Chunk) (S : List (List Nat)) (doc : Chunk)
    (h : contentHash doc.text ∈ S) :
    dedupStep (F, D, S) doc = (F, D ++ [dupAnn doc], S) := by
  simp [dedupStep, h, dupAnn]

lemma finalize_len (cfg : PipelineConfig) :
    ∀ (l : List Chunk) (F D : List Chunk) (S : List (List Nat)),
      (l.foldl (finalStep cfg) (F, D, S)).1.length +
        (l.foldl (finalStep cfg) (F, D, S)).2.1.length =
      F.length + D.length + l.length := by
  intro l
  induction l with
  | nil => intro F D S; simp
  | cons c t ih =>
    intro F D S
    rw [List.foldl_cons]
    cases hps : passesScore cfg c with
    | false =>
      obtain ⟨s, hls, hlt⟩ := passesScore_false cfg c hps
      rw [finalStep_score_lt cfg F D S c s hls hlt]
      have := ih F (D ++ [{ c with
        discard_reason := some ("failed llm score (" ++ toString s ++ ")"),
        discard_stage := some "Stage 5: LLM score filtering" }]) S
      simp only [List.length_append, List.length_cons, List.length_nil] at this ⊢
      omega
    | true =>
      rw [finalStep_passes cfg (F, D, S) c hps]
      by_cases hmem : contentHash c.text ∈ S
      · rw [dedupStep_dup F D S c hmem]
        have := ih F (D ++ [dupAnn c]) S
        simp only [List.length_append, List.length_cons, List.length_nil] at this ⊢
        omega
      · rw [dedupStep_new F D S c hmem]
        have := ih (F ++ [c]) D (contentHash c.text :: S)
        simp only [List.length_append, List.length_cons, List.length_nil] at this ⊢
        omega

lemma finalize_payload (cfg : PipelineConfig) :
    ∀ (l : List Chunk) (F D : List Chunk) (S : List (List Nat)),
      (((l.foldl (finalStep cfg) (F, D, S)).1 ++
        (l.foldl (finalStep cfg) (F, D, S)).2.1).map payload).Perm
      ((F ++ D).map payload ++ l.map payload) := by
  intro l
  induction l with
  | nil => intro F D S; simp
  | cons c t ih =>
    intro F D S
    rw [List.foldl_cons]
    cases hps : passesScore cfg c with
    | false =>
      obtain ⟨s, hls, hlt⟩ := passesScore_false cfg c hps
      rw [finalStep_score_lt cfg F D S c s hls hlt]
      have h := ih F (D ++ [{ c with
        discard_reason := some ("failed llm score (" ++ toString s ++ ")"),
        discard_stage := some "Stage 5: LLM score filtering" }]) S
      simp only [List.map_append, List.map_cons, List.map_nil, List.append_assoc,
        List.singleton_append, payload_update_discard, List.append_nil] at h ⊢
      exact h
    | true =>
      rw [finalStep_passes cfg (F, D, S) c hps]
      by_cases hmem : contentHash c.text ∈ S
      · rw [dedupStep_dup F D S c hmem]
        have h := ih F (D ++ [dupAnn c]) S
        simp only [dupAnn, List.map_append, List.map_cons, List.map_nil,
          List.append_assoc, List.singleton_append, payload_update_discard,
          List.append_nil] at h ⊢
        exact h
      · rw [dedupStep_new F D S c hmem]
        have h := ih (F ++ [c]) D (contentHash c.text :: S)
        simp only [List.map_append, List.map_cons, List.map_nil, List.append_assoc,
          List.singleton_append, List.append_nil] at h ⊢
        exact h.trans (List.Perm.append_left _ List.perm_middle.symm)

/-- C1: over every configuration, scoring oracle, and stage-2 chunk
collection, stages 3-5 of the pipeline partition the chunks: the lengths of
`final_documents` and `discarded_documents` sum to the number of stage-2
chunks, and the multiset of chunk identities (doc_id, doc_name, source path,
total_chunks, chunk_id, text) in `final ++ discarded` is exactly the
multiset of stage-2 chunk identities — every chunk lands in exactly one of
the two collections, never both, never neither. -/
theorem C1_partition (cfg : PipelineConfig) (oracle : Chunk → Option (Int × String))
    (chunks : List Chunk) :
    (pipelineStages cfg oracle chunks).1.length +
      (pipelineStages cfg oracle chunks).2.length = chunks.length ∧
    (((pipelineStages cfg oracle chunks).1 ++
      (pipelineStages cfg oracle chunks).2).map payload).Perm (chunks.map payload) := by
  have hpre : prefilterChunks cfg chunks =
      (chunks.filter (prefPass cfg),
       (chunks.filter (fun c => !(prefPass cfg c))).map (prefAnn cfg)) := by
    rw [prefilterChunks, prefilter_foldl]
    simp
  have hres : pipelineStages cfg oracle chunks =
      (((if cfg.scorer_enabled then
            scoreStage oracle (chunks.filter (prefPass cfg))
          else disabledScoreStage (chunks.filter (prefPass cfg))).foldl
          (finalStep cfg)
          ([], (chunks.filter (fun c => !(prefPass cfg c))).map (prefAnn cfg), [])).1,
       ((if cfg.scorer_enabled then
            scoreStage oracle (chunks.filter (prefPass cfg))
          else disabledScoreStage (chunks.filter (prefPass cfg))).foldl
          (finalStep cfg)
          ([], (chunks.filter (fun c => !(prefPass cfg c))).map (prefAnn cfg), [])).2.1) := by
    rw [pipelineStages, hpre, finalizeChunks]
  have hsc_len :
      (if cfg.scorer_enabled then
          scoreStage oracle (chunks.filter (prefPass cfg))
        else disabledScoreStage (chunks.filter (prefPass cfg))).length =
      (chunks.filter (prefPass cfg)).length := by
    by_cases h : cfg.scorer_enabled <;> simp [h, scoreStage, disabledScoreStage]
  have hsc_pay :
      (if cfg.scorer_enabled then
          scoreStage oracle (chunks.filter (prefPass cfg))
        else disabledScoreStage (chunks.filter (prefPass cfg))).map payload =
      (chunks.filter (prefPass cfg)).map payload := by
    by_cases h : cfg.scorer_enabled <;>
      simp [h, scoreStage_map_payload, disabledScoreStage_map_payload]
  have hfilter_len :
      (chunks.filter (prefPass cfg)).length +
        (chunks.filter (fun c => !(prefPass cfg c))).length = chunks.length := by
    have := (List.filter_append_perm (prefPass cfg) chunks).length_eq
    simpa using this
  have hann_pay :
      ((chunks.filter (fun c => !(prefPass cfg c))).map (prefAnn cfg)).map payload =
      (chunks.filter (fun c => !(prefPass cfg c))).map payload := by
    rw [List.map_map]
    rfl
  constructor
  · rw [hres]
    have := finalize_len cfg
      (if cfg.scorer_enabled then
          scoreStage oracle (chunks.filter (prefPass cfg))
        else disabledScoreStage (chunks.filter (prefPass cfg)))
      [] ((chunks.filter (fun c => !(prefPass cfg c))).map (prefAnn cfg)) []
    simp only [List.length_nil, List.length_map] at this
    rw [this, hsc_len]
    omega
  · rw [hres]
    have hperm := finalize_payload cfg
      (if cfg.scorer_enabled then
          scoreStage oracle (chunks.filter (prefPass cfg))
        else disabledScoreStage (chunks.filter (prefPass cfg)))
      [] ((chunks.filter (fun c => !(prefPass cfg c))).map (prefAnn cfg)) []
    rw [List.nil_append, hann_pay, hsc_pay] at hperm
    refine hperm.trans ?_
    have h1 : ((chunks.filter (fun c => !(prefPass cfg c))).map payload ++
        (chunks.filter (prefPass cfg)).map payload).Perm
        ((chunks.filter (prefPass cfg)).map payload ++
         (chunks.filter (fun c => !(prefPass cfg c))).map payload) :=
      List.perm_append_comm
    refine h1.trans ?_
    rw [← List.map_append]
    exact (List.filter_append_perm (prefPass cfg) chunks).map payload

lemma finalize_shape (cfg : PipelineConfig) :
    ∀ (l : List Chunk) (F D : List Chunk) (S : List (List Nat)),
      ∃ (Fx Dx : List Chunk) (Sx : List (List Nat)),
        l.foldl (finalStep cfg) (F, D, S) = (F ++ Fx, D ++ Dx, Sx) ∧
        (∀ h : List Nat, h ∈ Sx ↔
          (h ∈ S ∨ ∃ c ∈ l, passesScore cfg c = true ∧ contentHash c.text = h)) ∧
        (∀ c ∈ Fx, c ∈ l ∧ passesScore cfg c = true ∧ contentHash c.text ∉ S) := by
  intro l
  induction l with
  | nil =>
    intro F D S
    exact ⟨[], [], S, by simp, by simp, by simp⟩
  | cons c t ih =>
    intro F D S
    rw [List.foldl_cons]
    cases hps : passesScore cfg c with
    | false =>
      obtain ⟨s, hls, hlt⟩ := passesScore_false cfg c hps
      rw [finalStep_score_lt cfg F D S c s hls hlt]
      obtain ⟨Fx, Dx, Sx, heq, hiff, hmemF⟩ := ih F (D ++ [{ c with
        discard_reason := some ("failed llm score (" ++ toString s ++ ")"),
        discard_stage := some "Stage 5: LLM score filtering" }]) S
      refine ⟨Fx, { c with
        discard_reason := some ("failed llm score (" ++ toString s ++ ")"),
        discard_stage := some "Stage 5: LLM score filtering" } :: Dx, Sx, ?_, ?_, ?_⟩
      · rw [heq]
        simp [List.append_assoc]
      · intro h
        rw [hiff h]
        simp only [List.mem_cons]
        constructor
        · rintro (hS | ⟨x, hx, hp2, hh⟩)
          · exact Or.inl hS
          · exact Or.inr ⟨x, Or.inr hx, hp2, hh⟩
        · rintro (hS | ⟨x, rfl | hx, hp2, hh⟩)
          · exact Or.inl hS
          · rw [hps] at hp2
            cases hp2
          · exact Or.inr ⟨x, hx, hp2, hh⟩
      · intro x hx
        obtain ⟨hxl, hp2, hn⟩ := hmemF x hx
        exact ⟨List.mem_cons_of_mem _ hxl, hp2, hn⟩
    | true =>
      rw [finalStep_passes cfg (F, D, S) c hps]
      by_cases hmem : contentHash c.text ∈ S
      · rw [dedupStep_dup F D S c hmem]
        obtain ⟨Fx, Dx, Sx, heq, hiff, hmemF⟩ := ih F (D ++ [dupAnn c]) S
        refine ⟨Fx, dupAnn c :: Dx, Sx, ?_, ?_, ?_⟩
        · rw [heq]
          simp [List.append_assoc]
        · intro h
          rw [hiff h]
          simp only [List.mem_cons]
          constructor
          · rintro (hS | ⟨x, hx, hp2, hh⟩)
            · exact Or.inl hS
            · exact Or.inr ⟨x, Or.inr hx, hp2, hh⟩
          · rintro (hS | ⟨x, rfl | hx, hp2, hh⟩)
            · exact Or.inl hS
            · exact Or.inl (hh ▸ hmem)
            · exact Or.inr ⟨x, hx, hp2, hh⟩
        · intro x hx
          obtain ⟨hxl, hp2, hn⟩ := hmemF x hx
          exact ⟨List.mem_cons_of_mem _ hxl, hp2, hn⟩
      · rw [dedupStep_new F D S c hmem]
        obtain ⟨Fx, Dx, Sx, heq, hiff, hmemF⟩ := ih (F ++ [c]) D (contentHash c.text :: S)
        refine ⟨c :: Fx, Dx, Sx, ?_, ?_, ?_⟩
        · rw [heq]
          simp [List.append_assoc]
        · intro h
          rw [hiff h]
          simp only [List.mem_cons]
          constructor
          · rintro ((rfl | hS) | ⟨x, hx, hp2, hh⟩)
            · exact Or.inr ⟨c, Or.inl rfl, hps, rfl⟩
            · exact Or.inl hS
            · exact Or.inr ⟨x, Or.inr hx, hp2, hh⟩
          · rintro (hS | ⟨x, rfl | hx, hp2, hh⟩)
            · exact Or.inl (Or.inr hS)
            · exact Or.inl (Or.inl hh.symm)
            · exact Or.inr ⟨x, hx, hp2, hh⟩
        · intro x hx
          rcases List.mem_cons.mp hx with rfl | hx2
          · exact ⟨List.mem_cons_self _ _, hps, hmem⟩
          · obtain ⟨hxl, hp2, hn⟩ := hmemF x hx2
            exact ⟨List.mem_cons_of_mem _ hxl, hp2,
              fun hS => hn (List.mem_cons_of_mem _ hS)⟩

/-- C3 (amended): among the chunks reaching stage 5 with a given UTF-8 byte
content, the FIRST one that passes the score check (and whose digest has not
been produced by any earlier passing chunk) is accepted into
`final_documents`, and every later passing chunk with the same bytes is
discarded with reason "duplicate content"; exactly one final entry carries
that content.  The duplicate check is membership of the content digest in
the seen-hash set, inserted on first sight (last two conjuncts). -/
theorem C3_first_dup (cfg : PipelineConfig) (D0 : List Chunk)
    (l1 l2 l3 : List Chunk) (ci cj : Chunk)
    (hpi : passesScore cfg ci = true) (hpj : passesScore cfg cj = true)
    (hbytes : utf8Encode cj.text = utf8Encode ci.text)
    (hfirst : ∀ c ∈ l1, passesScore cfg c = true →
      utf8Encode c.text ≠ utf8Encode ci.text) :
    ci ∈ (finalizeChunks cfg (l1 ++ ci :: l2 ++ cj :: l3) D0).1 ∧
    dupAnn cj ∈ (finalizeChunks cfg (l1 ++ ci :: l2 ++ cj :: l3) D0).2.1 ∧
    (finalizeChunks cfg (l1 ++ ci :: l2 ++ cj :: l3) D0).1.countP
      (fun c => decide (utf8Encode c.text = utf8Encode ci.text)) = 1 ∧
    (∀ (F D : List Chunk) (S : List (List Nat)) (doc : Chunk),
      passesScore cfg doc = true → contentHash doc.text ∉ S →
      finalStep cfg (F, D, S) doc = (F ++ [doc], D, contentHash doc.text :: S)) ∧
    (∀ (F D : List Chunk) (S : List (List Nat)) (doc : Chunk),
      passesScore cfg doc = true → contentHash doc.text ∈ S →
      finalStep cfg (F, D, S) doc = (F, D ++ [dupAnn doc], S)) := by
  have hstep_new : ∀ (F D : List Chunk) (S : List (List Nat)) (doc : Chunk),
      passesScore cfg doc = true → contentHash doc.text ∉ S →
      finalStep cfg (F, D, S) doc = (F ++ [doc], D, contentHash doc.text :: S) :=
    fun F D S doc hp hn => (finalStep_passes cfg (F, D, S) doc hp).trans
      (dedupStep_new F D S doc hn)
  have hstep_dup : ∀ (F D : List Chunk) (S : List (List Nat)) (doc : Chunk),
      passesScore cfg doc = true → contentHash doc.text ∈ S →
      finalStep cfg (F, D, S) doc = (F, D ++ [dupAnn doc], S) :=
    fun F D S doc hp hm => (finalStep_passes cfg (F, D, S) doc hp).trans
      (dedupStep_dup F D S doc hm)
  rw [finalizeChunks, List.foldl_append, List.foldl_append]
  obtain ⟨F1, D1, S1, heq1, hiff1, hmemF1⟩ := finalize_shape cfg l1 [] D0 []
  rw [heq1, List.nil_append]
  have hci_not : contentHash ci.text ∉ S1 := by
    intro hin
    rcases (hiff1 _).mp hin with h0 | ⟨x, hx, hp2, hh⟩
    · simp at h0
    · exact hfirst x hx hp2 hh
  rw [show List.foldl (finalStep cfg) (F1, D0 ++ D1, S1) (ci :: l2) =
        List.foldl (finalStep cfg) (finalStep cfg (F1, D0 ++ D1, S1) ci) l2 from rfl]
  rw [hstep_new F1 (D0 ++ D1) S1 ci hpi hci_not]
  obtain ⟨F2, D2, S2, heq2, hiff2, hmemF2⟩ :=
    finalize_shape cfg l2 (F1 ++ [ci]) (D0 ++ D1) (contentHash ci.text :: S1)
  rw [heq2, List.foldl_cons]
  have hcj_in : contentHash cj.text ∈ S2 := by
    have : contentHash ci.text ∈ S2 :=
      (hiff2 _).mpr (Or.inl (List.mem_cons_self _ _))
    show utf8Encode cj.text ∈ S2
    rw [hbytes]
    exact this
  rw [hstep_dup ((F1 ++ [ci]) ++ F2) ((D0 ++ D1) ++ D2) S2 cj hpj hcj_in]
  obtain ⟨F3, D3, S3, heq3, hiff3, hmemF3⟩ :=
    finalize_shape cfg l3 ((F1 ++ [ci]) ++ F2) (((D0 ++ D1) ++ D2) ++ [dupAnn cj]) S2
  rw [heq3]
  refine ⟨?_, ?_, ?_, hstep_new, hstep_dup⟩
  · simp
  · simp
  · have hcnt1 : F1.countP (fun c => decide (utf8Encode c.text = utf8Encode ci.text)) = 0 := by
      rw [List.countP_eq_zero]
      intro x hx
      obtain ⟨hxl, hp2, _⟩ := hmemF1 x hx
      simpa using hfirst x hxl hp2
    have hcnt2 : F2.countP (fun c => decide (utf8Encode c.text = utf8Encode ci.text)) = 0 := by
      rw [List.countP_eq_zero]
      intro x hx
      obtain ⟨_, _, hn⟩ := hmemF2 x hx
      simp only [decide_eq_true_eq]
      intro hcontra
      exact hn (by
        show contentHash x.text ∈ contentHash ci.text :: S1
        rw [show contentHash x.text = contentHash ci.text from hcontra]
        exact List.mem_cons_self _ _)
    have hcnt3 : F3.countP (fun c => decide (utf8Encode c.text = utf8Encode ci.text)) = 0 := by
      rw [List.countP_eq_zero]
      intro x hx
      obtain ⟨_, _, hn⟩ := hmemF3 x hx
      simp only [decide_eq_true_eq]
      intro hcontra
      exact hn (by
        show contentHash x.text ∈ S2
        rw [show contentHash x.text = contentHash ci.text from hcontra]
        exact (hiff2 _).mpr (Or.inl (List.mem_cons_self _ _)))
    simp [List.countP_append, hcnt1, hcnt2, hcnt3, List.countP_cons]

/-- C3 counterexample: three chunks with byte-identical text all reach stage
5 and pass the score check.  Chunks 2 and 3 are "two chunks with
byte-identical text that both pass", yet the earlier of that pair (chunk 2)
is NOT accepted into `final_documents` (chunk 1 was); chunk 2 is discarded
as a duplicate, refuting the claim's "exactly one of them (the earlier in
iteration order) is accepted". -/
theorem C3_counterexample :
    (utf8Encode ("abc".toList) = utf8Encode ("abc".toList) ∧
      passesScore
        { malayalam_ratio_threshold := 0, min_word_count := 0,
          scorer_enabled := false, score_threshold := 5 }
        { doc_id := "1", doc_name := "d", doc_source_path := "", total_chunks := 3,
          chunk_id := 2, text := "abc".toList } = true) ∧
    (finalizeChunks
        { malayalam_ratio_threshold := 0, min_word_count := 0,
          scorer_enabled := false, score_threshold := 5 }
        [{ doc_id := "1", doc_name := "d", doc_source_path := "", total_chunks := 3,
           chunk_id := 1, text := "abc".toList },
         { doc_id := "1", doc_name := "d", doc_source_path := "", total_chunks := 3,
           chunk_id := 2, text := "abc".toList },
         { doc_id := "1", doc_name := "d", doc_source_path := "", total_chunks := 3,
           chunk_id := 3, text := "abc".toList }] []).1.all
      (fun c => decide (c.chunk_id ≠ 2)) = true ∧
    (finalizeChunks
        { malayalam_ratio_threshold := 0, min_word_count := 0,
          scorer_enabled := false, score_threshold := 5 }
        [{ doc_id := "1", doc_name := "d", doc_source_path := "", total_chunks := 3,
           chunk_id := 1, text := "abc".toList },
         { doc_id := "1", doc_name := "d", doc_source_path := "", total_chunks := 3,
           chunk_id := 2, text := "abc".toList },
         { doc_id := "1", doc_name := "d", doc_source_path := "", total_chunks := 3,
           chunk_id := 3, text := "abc".toList }] []).2.1.any
      (fun c => decide (c.chunk_id = 2 ∧ c.discard_reason = some "duplicate content")) =
      true := by
  decide

/-- C3 witness: two byte-identical chunks, the first accepted and the second
discarded as a duplicate. -/
theorem C3_witness :
    ({ doc_id := "1", doc_name := "d", doc_source_path := "", total_chunks := 2,
       chunk_id := 1, text := "ab".toList } : Chunk) ∈
      (finalizeChunks
        { malayalam_ratio_threshold := 0, min_word_count := 0,
          scorer_enabled := false, score_threshold := 5 }
        [{ doc_id := "1", doc_name := "d", doc_source_path := "", total_chunks := 2,
           chunk_id := 1, text := "ab".toList },
         { doc_id := "1", doc_name := "d", doc_source_path := "", total_chunks := 2,
           chunk_id := 2, text := "ab".toList }] []).1 ∧
    dupAnn
      { doc_id := "1", doc_name := "d", doc_source_path := "", total_chunks := 2,
        chunk_id := 2, text := "ab".toList } ∈
      (finalizeChunks
        { malayalam_ratio_threshold := 0, min_word_count := 0,
          scorer_enabled := false, score_threshold := 5 }
        [{ doc_id := "1", doc_name := "d", doc_source_path := "", total_chunks := 2,
           chunk_id := 1, text := "ab".toList },
         { doc_id := "1", doc_name := "d", doc_source_path := "", total_chunks := 2,
           chunk_id := 2, text := "ab".toList }] []).2.1 := by
  have h := C3_first_dup
    { malayalam_ratio_threshold := 0, min_word_count := 0,
      scorer_enabled := false, score_threshold := 5 } [] [] [] []
    { doc_id := "1", doc_name := "d", doc_source_path := "", total_chunks := 2,
      chunk_id := 1, text := "ab".toList }
    { doc_id := "1", doc_name := "d", doc_source_path := "", total_chunks := 2,
      chunk_id := 2, text := "ab".toList }
    rfl rfl rfl (by simp)
  exact ⟨h.1, h.2.1⟩

section CollapseLemmas

variable (p q : Char → Bool) (r : Char)

lemma collapseRunsAux_true_eq (l : List Char) :
    collapseRunsAux p r true l = collapseRunsAux p r false (l.dropWhile p) := by
  induction l with
  | nil => rfl
  | cons c cs ih =>
    cases hp : p c with
    | true => simp only [collapseRunsAux, hp, if_true, List.dropWhile_cons, ih]
    | false => simp only [collapseRunsAux, hp, List.dropWhile_cons, Bool.false_eq_true, if_false]

lemma collapseRunsAux_mem (b : Bool) (l : List Char) (c : Char)
    (h : c ∈ collapseRunsAux p r b l) : c = r ∨ (c ∈ l ∧ p c = false) := by
  induction l generalizing b with
  | nil => simp [collapseRunsAux] at h
  | cons d ds ih =>
    cases b <;> cases hd : p d <;>
      simp only [collapseRunsAux, hd, Bool.false_eq_true, if_false, if_true,
        List.mem_cons] at h
    · rcases h with rfl | h
      · exact Or.inr ⟨List.mem_cons_self _ _, hd⟩
      · rcases ih false h with h1 | ⟨h2, h3⟩
        · exact Or.inl h1
        · exact Or.inr ⟨List.mem_cons_of_mem _ h2, h3⟩
    · rcases h with rfl | h
      · exact Or.inl rfl
      · rcases ih true h with h1 | ⟨h2, h3⟩
        · exact Or.inl h1
        · exact Or.inr ⟨List.mem_cons_of_mem _ h2, h3⟩
    · rcases h with rfl | h
      · exact Or.inr ⟨List.mem_cons_self _ _, hd⟩
      · rcases ih false h with h1 | ⟨h2, h3⟩
        · exact Or.inl h1
        · exact Or.inr ⟨List.mem_cons_of_mem _ h2, h3⟩
    · rcases ih true h with h1 | ⟨h2, h3⟩
      · exact Or.inl h1
      · exact Or.inr ⟨List.mem_cons_of_mem _ h2, h3⟩

lemma collapseRunsAux_true_head (l : List Char) (x : Char)
    (h : (collapseRunsAux p r true l).head? = some x) : p x = false := by
  induction l with
  | nil => simp [collapseRunsAux] at h
  | cons d ds ih =>
    cases hd : p d with
    | true =>
      rw [show collapseRunsAux p r true (d :: ds) = collapseRunsAux p r true ds by
        simp [collapseRunsAux, hd]] at h
      exact ih h
    | false =>
      rw [show collapseRunsAux p r true (d :: ds) = d :: collapseRunsAux p r false ds by
        simp [collapseRunsAux, hd]] at h
      simp only [List.head?_cons, Option.some.injEq] at h
      rw [← h]
      exact hd

lemma collapseRunsAux_false_head (l : List Char) (x : Char)
    (h : (collapseRunsAux p r false l).head? = some x) : x = r ∨ l.head? = some x := by
  cases l with
  | nil => simp [collapseRunsAux] at h
  | cons d ds =>
    cases hd : p d with
    | true =>
      rw [show collapseRunsAux p r false (d :: ds) = r :: collapseRunsAux p r true ds by
        simp [collapseRunsAux, hd]] at h
      simp only [List.head?_cons, Option.some.injEq] at h
      exact Or.inl h.symm
    | false =>
      rw [show collapseRunsAux p r false (d :: ds) = d :: collapseRunsAux p r false ds by
        simp [collapseRunsAux, hd]] at h
      simp only [List.head?_cons] at h
      exact Or.inr (by simpa using h)

lemma collapseRunsAux_chain (b : Bool) (l : List Char) :
    (collapseRunsAux p r b l).Chain' (fun a b' => ¬(p a = true ∧ p b' = true)) := by
  induction l generalizing b with
  | nil => simp [collapseRunsAux]
  | cons d ds ih =>
    cases b <;> cases hd : p d
    · rw [show collapseRunsAux p r false (d :: ds) = d :: collapseRunsAux p r false ds by
        simp [collapseRunsAux, hd]]
      rw [List.chain'_cons']
      refine ⟨?_, ih false⟩
      intro y _ hcontra
      rw [hd] at hcontra
      exact absurd hcontra.1 (by simp)
    · rw [show collapseRunsAux p r false (d :: ds) = r :: collapseRunsAux p r true ds by
        simp [collapseRunsAux, hd]]
      rw [List.chain'_cons']
      refine ⟨?_, ih true⟩
      intro y hy hcontra
      rw [collapseRunsAux_true_head p r ds y hy] at hcontra
      exact absurd hcontra.2 (by simp)
    · rw [show collapseRunsAux p r true (d :: ds) = d :: collapseRunsAux p r false ds by
        simp [collapseRunsAux, hd]]
      rw [List.chain'_cons']
      refine ⟨?_, ih false⟩
      intro y _ hcontra
      rw [hd] at hcontra
      exact absurd hcontra.1 (by simp)
    · rw [show collapseRunsAux p r true (d :: ds) = collapseRunsAux p r true ds by
        simp [collapseRunsAux, hd]]
      exact ih true

lemma collapseRunsAux_chain_other (hqr : q r = false) :
    ∀ (n : Nat) (l : List Char), l.length ≤ n →
      l.Chain' (fun a b' => ¬(q a = true ∧ q b' = true)) →
      (collapseRunsAux p r false l).Chain' (fun a b' => ¬(q a = true ∧ q b' = true)) := by
  intro n
  induction n with
  | zero =>
    intro l hl _
    rw [List.length_eq_zero.mp (Nat.le_zero.mp hl)]
    simp [collapseRunsAux]
  | succ n ih =>
    intro l hl hc
    cases l with
    | nil => simp [collapseRunsAux]
    | cons d ds =>
      simp only [List.length_cons, Nat.add_le_add_iff_right] at hl
      cases hd : p d with
      | false =>
        rw [show collapseRunsAux p r false (d :: ds) = d :: collapseRunsAux p r false ds by
          simp [collapseRunsAux, hd]]
        rw [List.chain'_cons']
        constructor
        · intro y hy
          rcases collapseRunsAux_false_head p r ds y hy with rfl | hhd
          · intro hcontra
            rw [hqr] at hcontra
            exact absurd hcontra.2 (by simp)
          · exact (List.chain'_cons'.mp hc).1 y hhd
        · exact ih ds hl hc.tail
      | true =>
        rw [show collapseRunsAux p r false (d :: ds) = r :: collapseRunsAux p r true ds by
          simp [collapseRunsAux, hd]]
        rw [collapseRunsAux_true_eq]
        rw [List.chain'_cons']
        constructor
        · intro y _ hcontra
          rw [hqr] at hcontra
          exact absurd hcontra.1 (by simp)
        · exact ih (ds.dropWhile p)
            (le_trans (List.dropWhile_suffix p).length_le hl)
            (hc.tail.suffix (List.dropWhile_suffix p))

lemma collapseRunsAux_id (l : List Char)
    (hchain : l.Chain' (fun a b' => ¬(p a = true ∧ p b' = true)))
    (hall : ∀ c ∈ l, p c = true → c = r) :
    collapseRunsAux p r false l = l := by
  induction l with
  | nil => rfl
  | cons d ds ih =>
    cases hd : p d with
    | false =>
      rw [show collapseRunsAux p r false (d :: ds) = d :: collapseRunsAux p r false ds by
        simp [collapseRunsAux, hd]]
      rw [ih hchain.tail (fun c hc hp => hall c (List.mem_cons_of_mem _ hc) hp)]
    | true =>
      have hdr : d = r := hall d (List.mem_cons_self _ _) hd
      rw [show collapseRunsAux p r false (d :: ds) = r :: collapseRunsAux p r true ds by
        simp [collapseRunsAux, hd]]
      have htail : collapseRunsAux p r true ds = ds := by
        cases ds with
        | nil => rfl
        | cons e es =>
          have he : p e = false := by
            have h1 := (List.chain'_cons'.mp hchain).1 e (by simp)
            cases hb : p e
            · rfl
            · exact absurd ⟨hd, hb⟩ h1
          rw [show collapseRunsAux p r true (e :: es) = e :: collapseRunsAux p r false es by
            simp [collapseRunsAux, he]]
          have h2 := ih hchain.tail
            (fun c hc hp => hall c (List.mem_cons_of_mem _ hc) hp)
          rw [show collapseRunsAux p r false (e :: es) = e :: collapseRunsAux p r false es by
            simp [collapseRunsAux, he]] at h2
          exact h2
      rw [htail, hdr]

lemma collapseRunsAux_getLast (b : Bool) (l : List Char) (a : Char)
    (hl : l.getLast? = some a) (ha : p a = false) :
    (collapseRunsAux p r b l).getLast? = some a := by
  induction l generalizing b with
  | nil => simp at hl
  | cons d ds ih =>
    cases ds with
    | nil =>
      simp only [List.getLast?_singleton, Option.some.injEq] at hl
      subst hl
      cases b <;> simp [collapseRunsAux, ha]
    | cons e es =>
      have hl2 : (e :: es).getLast? = some a := by rwa [List.getLast?_cons_cons] at hl
      cases hd : p d with
      | false =>
        have hres : collapseRunsAux p r b (d :: e :: es) =
            d :: collapseRunsAux p r false (e :: es) := by
          cases b <;> simp [collapseRunsAux, hd]
        rw [hres]
        rcases hww : collapseRunsAux p r false (e :: es) with _ | ⟨f, fs⟩
        · have hw := ih false hl2
          rw [hww] at hw
          simp at hw
        · have hw := ih false hl2
          rw [hww] at hw
          rw [List.getLast?_cons_cons]
          exact hw
      | true =>
        cases b with
        | true =>
          rw [show collapseRunsAux p r true (d :: e :: es) =
              collapseRunsAux p r true (e :: es) by simp [collapseRunsAux, hd]]
          exact ih true hl2
        | false =>
          rw [show collapseRunsAux p r false (d :: e :: es) =
              r :: collapseRunsAux p r true (e :: es) by simp [collapseRunsAux, hd]]
          rcases hww : collapseRunsAux p r true (e :: es) with _ | ⟨f, fs⟩
          · have hw := ih true hl2
            rw [hww] at hw
            simp at hw
          · have hw := ih true hl2
            rw [hww] at hw
            rw [List.getLast?_cons_cons]
            exact hw

end CollapseLemmas

lemma dropWhile_head_not (w : Char → Bool) (l : List Char) (x : Char)
    (h : (l.dropWhile w).head? = some x) : w x = false := by
  induction l with
  | nil => simp at h
  | cons d ds ih =>
    cases hd : w d with
    | true =>
      rw [List.dropWhile_cons, if_pos hd] at h
      exact ih h
    | false =>
      rw [List.dropWhile_cons, if_neg (by simp [hd])] at h
      simp only [List.head?_cons, Option.some.injEq] at h
      rw [← h]
      exact hd

lemma getLast?_of_suffix {w v : List Char} (h : w <:+ v) (hw : w ≠ []) :
    v.getLast? = w.getLast? := by
  obtain ⟨u, rfl⟩ := h
  rw [List.getLast?_append]
  rcases hlast : w.getLast? with _ | a
  · exact absurd (List.getLast?_eq_none_iff.mp hlast) hw
  · simp

lemma dropWhile_eq_self_of_head (w : Char → Bool) (l : List Char)
    (h : ∀ x, l.head? = some x → w x = false) : l.dropWhile w = l := by
  cases l with
  | nil => rfl
  | cons d ds =>
    rw [List.dropWhile_cons, if_neg]
    simp [h d rfl]

lemma pyStrip_head (l : List Char) (x : Char) (h : (pyStrip l).head? = some x) :
    pyIsSpace x = false := by
  rw [pyStrip, List.head?_reverse] at h
  have hne : (l.dropWhile pyIsSpace).reverse.dropWhile pyIsSpace ≠ [] := by
    intro h0
    rw [h0] at h
    simp at h
  have hsfx := getLast?_of_suffix (List.dropWhile_suffix pyIsSpace) hne
  rw [← hsfx, List.getLast?_reverse] at h
  exact dropWhile_head_not pyIsSpace l x h

lemma pyStrip_getLast (l : List Char) (x : Char) (h : (pyStrip l).getLast? = some x) :
    pyIsSpace x = false := by
  rw [pyStrip, List.getLast?_reverse] at h
  exact dropWhile_head_not pyIsSpace _ x h

lemma pyStrip_eq_self (l : List Char)
    (hh : ∀ x, l.head? = some x → pyIsSpace x = false)
    (hl : ∀ x, l.getLast? = some x → pyIsSpace x = false) : pyStrip l = l := by
  rw [pyStrip, dropWhile_eq_self_of_head _ _ hh,
    dropWhile_eq_self_of_head _ _ (fun x hx => hl x (by rwa [List.head?_reverse] at hx)),
    List.reverse_reverse]

lemma isNewline_isSpace (c : Char) (h : isNewline c = true) : pyIsSpace c = true := by
  have : c = '\n' := by simpa [isNewline] using h
  subst this
  decide

lemma isSpaceOrTab_isSpace (c : Char) (h : isSpaceOrTab c = true) : pyIsSpace c = true := by
  have : c = ' ' ∨ c = '\t' := by simpa [isSpaceOrTab] using h
  rcases this with rfl | rfl <;> decide

lemma not_pyIsSpace_newline (c : Char) (h : pyIsSpace c = false) : isNewline c = false := by
  cases hb : isNewline c
  · rfl
  · rw [isNewline_isSpace c hb] at h
    cases h

lemma not_pyIsSpace_spaceTab (c : Char) (h : pyIsSpace c = false) : isSpaceOrTab c = false := by
  cases hb : isSpaceOrTab c
  · rfl
  · rw [isSpaceOrTab_isSpace c hb] at h
    cases h

/-- C8: `remove_extra_whitespace` is idempotent: applying it twice yields
the same result as applying it once.  The output is stripped at both ends,
contains no newline run and no space/tab run of length two, and contains no
tab — so a second strip and both collapses leave it unchanged. -/
theorem C8_idempotent (x : List Char) :
    remove_extra_whitespace (remove_extra_whitespace x) = remove_extra_whitespace x := by
  have hz : remove_extra_whitespace x =
      collapseRunsAux isSpaceOrTab ' ' false
        (collapseRunsAux isNewline '\n' false (pyStrip x)) := rfl
  set w := pyStrip x with hw
  set y := collapseRunsAux isNewline '\n' false w with hy
  set z := collapseRunsAux isSpaceOrTab ' ' false y with hzz
  have hhead : ∀ c, z.head? = some c → pyIsSpace c = false := by
    intro c hc
    rcases hww : w with _ | ⟨d, ds⟩
    · rw [hww] at hy
      rw [hy] at hzz
      rw [hzz] at hc
      simp [collapseRunsAux] at hc
    · have hd : pyIsSpace d = false := pyStrip_head x d (by rw [← hw, hww]; rfl)
      have hy2 : y = d :: collapseRunsAux isNewline '\n' false ds := by
        rw [hy, hww]
        simp [collapseRunsAux, not_pyIsSpace_newline d hd]
      have hz2 : z = d :: collapseRunsAux isSpaceOrTab ' ' false
          (collapseRunsAux isNewline '\n' false ds) := by
        rw [hzz, hy2]
        simp [collapseRunsAux, not_pyIsSpace_spaceTab d hd]
      rw [hz2] at hc
      simp only [List.head?_cons, Option.some.injEq] at hc
      rw [← hc]
      exact hd
  have hlast : ∀ c, z.getLast? = some c → pyIsSpace c = false := by
    intro c hc
    rcases hwl : w.getLast? with _ | e
    · rw [List.getLast?_eq_none_iff.mp hwl] at hy
      rw [hy] at hzz
      rw [hzz] at hc
      simp [collapseRunsAux] at hc
    · have he : pyIsSpace e = false := pyStrip_getLast x e (by rw [← hw]; exact hwl)
      have hy2 : y.getLast? = some e :=
        collapseRunsAux_getLast isNewline '\n' false w e hwl
          (not_pyIsSpace_newline e he)
      have hz2 : z.getLast? = some e :=
        collapseRunsAux_getLast isSpaceOrTab ' ' false y e hy2
          (not_pyIsSpace_spaceTab e he)
      rw [hz2] at hc
      injection hc with hc
      rw [← hc]
      exact he
  have hstrip : pyStrip z = z := pyStrip_eq_self z hhead hlast
  have hNchain : z.Chain' (fun a b' => ¬(isNewline a = true ∧ isNewline b' = true)) := by
    rw [hzz]
    exact collapseRunsAux_chain_other isSpaceOrTab isNewline ' ' (by decide)
      y.length y le_rfl (by rw [hy]; exact collapseRunsAux_chain isNewline '\n' false w)
  have hN : collapseRunsAux isNewline '\n' false z = z := by
    apply collapseRunsAux_id isNewline '\n' z hNchain
    intro c _ hc
    simpa [isNewline] using hc
  have hSchain : z.Chain' (fun a b' => ¬(isSpaceOrTab a = true ∧ isSpaceOrTab b' = true)) := by
    rw [hzz]
    exact collapseRunsAux_chain isSpaceOrTab ' ' false y
  have hS : collapseRunsAux isSpaceOrTab ' ' false z = z := by
    apply collapseRunsAux_id isSpaceOrTab ' ' z hSchain
    intro c hcz hc
    rcases collapseRunsAux_mem isSpaceOrTab ' ' false y c (by rw [← hzz]; exact hcz)
      with h1 | ⟨_, h3⟩
    · exact h1
    · rw [hc] at h3
      cases h3
  show collapseRunsAux isSpaceOrTab ' ' false
      (collapseRunsAux isNewline '\n' false (pyStrip z)) = z
  rw [hstrip, hN, hS]

end MalayalamCorpusCleaner
